import Mathlib

/-!
# Verification of the BeachMap ranking engine

Shallow embedding of the standings computation in
`src/components/public/BeachMap.tsx` (the `competitors` `useMemo` block):
aggregation of hourly entries and big catches per competitor, sector
coefficients and sector ranking, the place-group general ranking, and the
final per-sector display lists.  JavaScript numbers are modelled as `ℚ`,
ranks (assigned as array indices + 1, or the constant 120) as `ℕ`.
-/

namespace BeachMap

/-- A competitor record from the `competitors` collection.  The `sector`
field is `Option String` so that a record missing the field can be
represented (it then matches no sector filter). -/
structure Competitor where
  id : String
  fullName : String
  equipe : String
  boxNumber : ℚ
  boxCode : String
  sector : Option String
  photo : String
  deriving DecidableEq, Repr

/-- An hourly catch record.  `hour` is `Option ℚ` so that a record with a
missing hour field can be represented (it then matches no hour of the loop). -/
structure HourlyEntry where
  competitorId : String
  hour : Option ℚ
  fishCount : ℚ
  totalWeight : ℚ
  status : String
  deriving DecidableEq, Repr

/-- A big-catch record from the `bigCatches` collection. -/
structure BigCatchEntry where
  competitorId : String
  biggestCatch : ℚ
  status : String
  deriving DecidableEq, Repr

/-- The computed per-competitor record (`CompetitorChip` in the source). -/
structure CompetitorChip where
  id : String
  name : String
  equipe : String
  boxNumber : ℚ
  boxCode : String
  sector : Option String
  photo : String
  fishCount : ℚ
  totalWeight : ℚ
  biggestCatch : ℚ
  points : ℚ
  coefficient : ℚ
  classementSecteur : ℕ
  classementGeneral : ℕ
  deriving DecidableEq, Repr

/-- The snapshot delivered by the Firestore subscription: the three input
collections of the `useMemo` computation. -/
structure Snapshot where
  competitors : List Competitor
  hourlyEntries : List HourlyEntry
  bigCatches : List BigCatchEntry
  deriving DecidableEq, Repr

/-- `['locked_judge', 'locked_admin', 'offline_judge', 'offline_admin']`:
the statuses counted toward standings. -/
def countedStatuses : List String :=
  ["locked_judge", "locked_admin", "offline_judge", "offline_admin"]

/-- Status gate used in both the hourly-entry filter and the big-catch lookup. -/
def countedStatus (s : String) : Bool := countedStatuses.contains s

/-- `const sectors = ['A', 'B', 'C', 'D', 'E', 'F']`. -/
def sectors : List String := ["A", "B", "C", "D", "E", "F"]

/-- The hour values `1..7` iterated by `for (let hour = 1; hour <= 7; hour++)`. -/
def hours : List ℚ := [1, 2, 3, 4, 5, 6, 7]

/-- The inner filter of the aggregation loop: entries of this competitor at
this hour with a counted status. -/
def entriesAt (snap : Snapshot) (cid : String) (h : ℚ) : List HourlyEntry :=
  snap.hourlyEntries.filter fun e =>
    decide (e.competitorId = cid) && decide (e.hour = some h) && countedStatus e.status

/-- `nbPrisesGlobal`: fish counts summed over the hour loop. -/
def nbPrisesGlobal (snap : Snapshot) (cid : String) : ℚ :=
  (hours.map fun h => ((entriesAt snap cid h).map (·.fishCount)).sum).sum

/-- `poidsTotal`: total weights summed over the hour loop. -/
def poidsTotal (snap : Snapshot) (cid : String) : ℚ :=
  (hours.map fun h => ((entriesAt snap cid h).map (·.totalWeight)).sum).sum

/-- `grossePriseEntry`: the first big-catch record of this competitor with a
counted status, if any. -/
def grossePriseEntry (snap : Snapshot) (cid : String) : Option BigCatchEntry :=
  snap.bigCatches.find? fun e =>
    decide (e.competitorId = cid) && countedStatus e.status

/-- `grossePrise = grossePriseEntry ? grossePriseEntry.biggestCatch : 0`. -/
def grossePrise (snap : Snapshot) (cid : String) : ℚ :=
  match grossePriseEntry snap cid with
  | some e => e.biggestCatch
  | none => 0

/-- The body of `sectorCompetitors.map(competitor => ...)`: aggregate one
competitor's entries into a chip with `points = nbPrises * 50 + poids` and
placeholder zeros for coefficient and ranks. -/
def aggregate (snap : Snapshot) (competitor : Competitor) : CompetitorChip :=
  { id := competitor.id
    name := competitor.fullName
    equipe := competitor.equipe
    boxNumber := competitor.boxNumber
    boxCode := competitor.boxCode
    sector := competitor.sector
    photo := competitor.photo
    fishCount := nbPrisesGlobal snap competitor.id
    totalWeight := poidsTotal snap competitor.id
    biggestCatch := grossePrise snap competitor.id
    points := nbPrisesGlobal snap competitor.id * 50 + poidsTotal snap competitor.id
    coefficient := 0
    classementSecteur := 0
    classementGeneral := 0 }

/-- `firestoreCompetitors.filter(comp => comp.sector === sector)`. -/
def sectorCompetitors (snap : Snapshot) (sector : String) : List Competitor :=
  snap.competitors.filter fun c => decide (c.sector = some sector)

/-- `sectorCalculated`: the aggregated chips of one sector. -/
def sectorCalculated (snap : Snapshot) (sector : String) : List CompetitorChip :=
  (sectorCompetitors snap sector).map (aggregate snap)

/-- `sectorTotalNbPrises`: the sector-wide fish-count total. -/
def sectorTotalNbPrises (snap : Snapshot) (sector : String) : ℚ :=
  ((sectorCalculated snap sector).map (·.fishCount)).sum

/-- The coefficient assignment loop:
`comp.coefficient = sectorTotalNbPrises > 0 ? points * fishCount / total : 0`. -/
def withCoefficients (snap : Snapshot) (sector : String) : List CompetitorChip :=
  (sectorCalculated snap sector).map fun c =>
    { c with coefficient :=
        if 0 < sectorTotalNbPrises snap sector then
          c.points * c.fishCount / sectorTotalNbPrises snap sector
        else 0 }

/-- The coefficient value assigned to a chip `c` by the loop above (named for
use in proofs; definitionally the expression mapped in `withCoefficients`). -/
def coeffOf (snap : Snapshot) (sector : String) (c : CompetitorChip) : ℚ :=
  if 0 < sectorTotalNbPrises snap sector then
    c.points * c.fishCount / sectorTotalNbPrises snap sector
  else 0

/-- Stable insertion used to model JavaScript's stable `Array.prototype.sort`:
`x` is placed before the first element `y` such that `r x y` (i.e. the
comparator does not require `y` before `x`). -/
def insertBy (r : α → α → Bool) (x : α) : List α → List α
  | [] => [x]
  | y :: ys => if r x y then x :: y :: ys else y :: insertBy r x ys

/-- Stable sort by the total preorder `r`, modelling `Array.prototype.sort`
(stable per the ECMAScript specification). -/
def sortBy (r : α → α → Bool) : List α → List α
  | [] => []
  | x :: xs => insertBy r x (sortBy r xs)

/-- Comparator of the sector sort `(a, b) => b.points - a.points`: `a` may
precede `b` exactly when the comparator value is `≤ 0`. -/
def pointsGe (a b : CompetitorChip) : Bool := decide (b.points ≤ a.points)

/-- `sectorSorted`: sector chips sorted descending by points. -/
def sectorSorted (snap : Snapshot) (sector : String) : List CompetitorChip :=
  sortBy pointsGe (withCoefficients snap sector)

/-- The rank-assignment loop `sectorSorted.forEach((comp, index) =>
comp.classementSecteur = index + 1)`, with `i` the index of the head. -/
def assignSectorRanks : ℕ → List CompetitorChip → List CompetitorChip
  | _, [] => []
  | i, c :: cs => { c with classementSecteur := i + 1 } :: assignSectorRanks (i + 1) cs

/-- `sectorCalculations[sector]`: the ranked chips of one sector. -/
def sectorCalculations (snap : Snapshot) (sector : String) : List CompetitorChip :=
  assignSectorRanks 0 (sectorSorted snap sector)

/-- `sectorCompetitors.find(comp => comp.classementSecteur === place)`:
the competitor of one sector holding a given sector rank, if any. -/
def competitorAtPlace (snap : Snapshot) (sector : String) (place : ℕ) :
    Option CompetitorChip :=
  (sectorCalculations snap sector).find? fun c => decide (c.classementSecteur = place)

/-- The place-group of one place: at most one competitor per sector, collected
in sector order A..F. -/
def placeGroup (snap : Snapshot) (place : ℕ) : List CompetitorChip :=
  sectors.filterMap fun s => competitorAtPlace snap s place

/-- Comparator of the place-group sort: descending by coefficient, remaining
ties descending by `biggestCatch` (`a` may precede `b` exactly when the
comparator value is `≤ 0`). -/
def coeffGe (a b : CompetitorChip) : Bool :=
  if a.coefficient = b.coefficient then decide (b.biggestCatch ≤ a.biggestCatch)
  else decide (b.coefficient < a.coefficient)

/-- The places `1..20` iterated by `for (let place = 1; place <= 20; place++)`. -/
def places : List ℕ := List.range' 1 20

/-- `generalRanking`: the concatenation over places 1..20 of the sorted
place-groups. -/
def generalRanking (snap : Snapshot) : List CompetitorChip :=
  (places.map fun place => sortBy coeffGe (placeGroup snap place)).flatten

/-- `generalRanking.filter(comp => comp.coefficient === 0)`. -/
def zeroCoeffCompetitors (snap : Snapshot) : List CompetitorChip :=
  (generalRanking snap).filter fun c => decide (c.coefficient = 0)

/-- `generalRanking.filter(comp => comp.coefficient > 0)`. -/
def nonZeroCompetitors (snap : Snapshot) : List CompetitorChip :=
  (generalRanking snap).filter fun c => decide (0 < c.coefficient)

/-- `nonZeroCompetitors.forEach((comp, index) =>
comp.classementGeneral = index + 1)`, with `i` the index of the head. -/
def assignGeneralRanks : ℕ → List CompetitorChip → List CompetitorChip
  | _, [] => []
  | i, c :: cs => { c with classementGeneral := i + 1 } :: assignGeneralRanks (i + 1) cs

/-- The non-zero-coefficient competitors with their general ranks assigned. -/
def nonZeroRanked (snap : Snapshot) : List CompetitorChip :=
  assignGeneralRanks 0 (nonZeroCompetitors snap)

/-- The sentinel general rank given to every zero-coefficient competitor. -/
def sentinelRank : ℕ := 120

/-- `zeroCoeffCompetitors.forEach(comp => comp.classementGeneral = 120)`. -/
def zeroRanked (snap : Snapshot) : List CompetitorChip :=
  (zeroCoeffCompetitors snap).map fun c => { c with classementGeneral := sentinelRank }

/-- `[...nonZeroCompetitors, ...zeroCoeffCompetitors]`: the sequence grouped
into per-sector lists. -/
def allRanked (snap : Snapshot) : List CompetitorChip :=
  nonZeroRanked snap ++ zeroRanked snap

/-- Comparator of the display sort `(a, b) => a.boxNumber - b.boxNumber`. -/
def boxLe (a b : CompetitorChip) : Bool := decide (a.boxNumber ≤ b.boxNumber)

/-- `competitorsBySector[sector]`: the final output of the `useMemo` block for
one sector — the ranked chips of that sector, sorted ascending by box number.
(The JavaScript grouping loop pushes chips into per-sector arrays in sequence
order, which is the sequence filtered by sector.) -/
def competitorsBySector (snap : Snapshot) (sector : String) : List CompetitorChip :=
  sortBy boxLe ((allRanked snap).filter fun c => decide (c.sector = some sector))

/-- Erase the general-rank field: two chips are the same competitor record up
to general-rank assignment iff their `eraseGR` images agree. -/
def eraseGR (c : CompetitorChip) : CompetitorChip := { c with classementGeneral := 0 }

/-- Erase the sector-rank field. -/
def eraseSR (c : CompetitorChip) : CompetitorChip := { c with classementSecteur := 0 }

/-- The data-model invariant of the spec: hourly entries carry non-negative
fish counts and weights. -/
def NonnegEntries (snap : Snapshot) : Prop :=
  ∀ e ∈ snap.hourlyEntries, 0 ≤ e.fishCount ∧ 0 ≤ e.totalWeight

/-- Hour values matched by the aggregation loop: exactly the seven discrete
slots `1..7`. -/
def isCountedHour (oh : Option ℚ) : Bool := hours.any fun h => decide (oh = some h)

/-! ### Generic facts about the stable sort -/

theorem insertBy_perm (r : α → α → Bool) (x : α) (l : List α) :
    List.Perm (insertBy r x l) (x :: l) := by
  induction l with
  | nil => exact List.Perm.refl _
  | cons y ys ih =>
    unfold insertBy
    cases hr : r x y
    · simpa [hr] using List.Perm.trans (List.Perm.cons y ih) (List.Perm.swap x y ys)
    · simp [hr]

theorem sortBy_perm (r : α → α → Bool) (l : List α) : List.Perm (sortBy r l) l := by
  induction l with
  | nil => exact List.Perm.refl _
  | cons x xs ih =>
    exact List.Perm.trans (insertBy_perm r x (sortBy r xs)) (List.Perm.cons x ih)

theorem mem_insertBy (r : α → α → Bool) {x y : α} {l : List α} :
    y ∈ insertBy r x l ↔ y = x ∨ y ∈ l := by
  rw [(insertBy_perm r x l).mem_iff, List.mem_cons]

theorem pairwise_insertBy (r : α → α → Bool)
    (htot : ∀ a b, r a b = true ∨ r b a = true)
    (htrans : ∀ a b c, r a b = true → r b c = true → r a c = true)
    {x : α} {l : List α} (hl : List.Pairwise (fun a b => r a b = true) l) :
    List.Pairwise (fun a b => r a b = true) (insertBy r x l) := by
  induction l with
  | nil => simp [insertBy]
  | cons y ys ih =>
    rcases List.pairwise_cons.1 hl with ⟨hy, hys⟩
    unfold insertBy
    cases hr : r x y
    · have hyx : r y x = true := (htot x y).resolve_left (by simp [hr])
      refine List.pairwise_cons.2 ⟨?_, ih hys⟩
      intro z hz
      rcases (mem_insertBy r).1 hz with h | h
      · exact h ▸ hyx
      · exact hy z h
    · refine List.pairwise_cons.2 ⟨?_, hl⟩
      intro z hz
      rcases List.mem_cons.1 hz with h | h
      · exact h ▸ hr
      · exact htrans x y z hr (hy z h)

theorem pairwise_sortBy (r : α → α → Bool)
    (htot : ∀ a b, r a b = true ∨ r b a = true)
    (htrans : ∀ a b c, r a b = true → r b c = true → r a c = true)
    (l : List α) : List.Pairwise (fun a b => r a b = true) (sortBy r l) := by
  induction l with
  | nil => simp [sortBy]
  | cons x xs ih => exact pairwise_insertBy r htot htrans ih

theorem filter_insertBy_pos (r : α → α → Bool) (p : α → Bool) {x : α} (l : List α)
    (hpx : p x = true) (hcomp : ∀ y, p y = true → r x y = true) :
    (insertBy r x l).filter p = x :: l.filter p := by
  induction l with
  | nil => simp [insertBy, hpx]
  | cons y ys ih =>
    unfold insertBy
    cases hr : r x y
    · have hpy : p y = false := by
        cases hpy : p y
        · rfl
        · exact absurd (hcomp y hpy) (by simp [hr])
      simp [List.filter_cons, hpy, ih]
    · simp [List.filter_cons, hpx]

theorem filter_insertBy_neg (r : α → α → Bool) (p : α → Bool) {x : α} (l : List α)
    (hpx : p x = false) : (insertBy r x l).filter p = l.filter p := by
  induction l with
  | nil => simp [insertBy, hpx]
  | cons y ys ih =>
    unfold insertBy
    cases hr : r x y <;> cases hpy : p y <;>
      simp [List.filter_cons, hpy, hpx, ih]

/-- Stability of `sortBy`: the subsequence of elements of any comparator-tie
class `p` is untouched by the sort. -/
theorem filter_sortBy (r : α → α → Bool) (p : α → Bool)
    (hcomp : ∀ a b, p a = true → p b = true → r a b = true) (l : List α) :
    (sortBy r l).filter p = l.filter p := by
  induction l with
  | nil => rfl
  | cons x xs ih =>
    unfold sortBy
    cases hpx : p x
    · rw [filter_insertBy_neg r p _ hpx, ih, List.filter_cons, if_neg (by simp [hpx])]
    · rw [filter_insertBy_pos r p _ hpx (fun y hpy => hcomp x y hpx hpy), ih,
        List.filter_cons, if_pos (by simp [hpx])]

/-- Two lists that are both sorted descending by a key and have identical
key-class subsequences are equal: a stable descending sort result is unique. -/
theorem sorted_eq_of_filter_eq (f : α → ℚ) :
    ∀ l₁ l₂ : List α, List.Pairwise (fun a b => f b ≤ f a) l₁ →
      List.Pairwise (fun a b => f b ≤ f a) l₂ →
      (∀ k : ℚ, l₁.filter (fun a => decide (f a = k)) =
        l₂.filter (fun a => decide (f a = k))) →
      l₁ = l₂ := by
  intro l₁
  induction l₁ with
  | nil =>
    intro l₂ _ h₂ hfilt
    cases l₂ with
    | nil => rfl
    | cons b t₂ =>
      have := hfilt (f b)
      simp [List.filter_cons] at this
  | cons a t₁ ih =>
    intro l₂ h₁ h₂ hfilt
    cases l₂ with
    | nil =>
      have := hfilt (f a)
      simp [List.filter_cons] at this
    | cons b t₂ =>
      rcases List.pairwise_cons.1 h₁ with ⟨ha, ht₁⟩
      rcases List.pairwise_cons.1 h₂ with ⟨hb, ht₂⟩
      have hfa : (a :: t₁).filter (fun x => decide (f x = f a)) =
          (b :: t₂).filter (fun x => decide (f x = f a)) := hfilt (f a)
      have hamem : a ∈ (b :: t₂).filter (fun x => decide (f x = f a)) := by
        rw [← hfa]
        simp [List.filter_cons]
      have hab : f a = f b := by
        rcases List.mem_filter.1 hamem with ⟨hmem, _⟩
        rcases List.mem_cons.1 hmem with h | h
        · rw [h]
        · -- `a` sits in `t₂`, so `f b ≥ f a`; symmetrically `f a ≥ f b`.
          have h1 : f a ≤ f b := hb a h
          have hbmem : b ∈ (a :: t₁).filter (fun x => decide (f x = f b)) := by
            rw [hfilt (f b)]
            simp [List.filter_cons]
          rcases List.mem_filter.1 hbmem with ⟨hmem', _⟩
          rcases List.mem_cons.1 hmem' with h' | h'
          · rw [h']
          · exact le_antisymm h1 (ha b h')
      have hcons : a :: t₁.filter (fun x => decide (f x = f a)) =
          b :: t₂.filter (fun x => decide (f x = f a)) := by
        have := hfa
        rwa [List.filter_cons, if_pos (by simp), List.filter_cons,
          if_pos (by simp [← hab])] at this
      have hhead : a = b := (List.cons_eq_cons.1 hcons).1
      have htails : ∀ k : ℚ, t₁.filter (fun x => decide (f x = k)) =
          t₂.filter (fun x => decide (f x = k)) := by
        intro k
        by_cases hk : k = f a
        · subst hk
          exact (List.cons_eq_cons.1 hcons).2
        · have := hfilt k
          rwa [List.filter_cons, if_neg (by simp [Ne.symm hk]), List.filter_cons,
            if_neg (by simp [← hab, Ne.symm hk])] at this
      rw [hhead, ih t₂ ht₁ ht₂ htails]

/-! ### Aggregation: the hour loop equals one filter over all entries -/

theorem sum_filter_or_disjoint (v : α → ℚ) (p₁ p₂ : α → Bool)
    (hdisj : ∀ a, p₁ a = true → p₂ a = false) (l : List α) :
    ((l.filter fun a => p₁ a || p₂ a).map v).sum =
      ((l.filter p₁).map v).sum + ((l.filter p₂).map v).sum := by
  induction l with
  | nil => simp
  | cons a l ih =>
    cases h₁ : p₁ a
    · cases h₂ : p₂ a
      · simpa [List.filter_cons, h₁, h₂] using ih
      · simp only [List.filter_cons, h₁, h₂]
        simp [ih]
        ring
    · have h₂ : p₂ a = false := hdisj a h₁
      simp only [List.filter_cons, h₁, h₂]
      simp [ih]
      ring

theorem sum_over_hour_keys (v : HourlyEntry → ℚ) (q : HourlyEntry → Bool) :
    ∀ ks : List ℚ, ks.Nodup → ∀ l : List HourlyEntry,
      ((ks.map fun h =>
          ((l.filter fun e => q e && decide (e.hour = some h)).map v).sum).sum) =
        ((l.filter fun e => q e && ks.any fun h => decide (e.hour = some h)).map v).sum := by
  intro ks
  induction ks with
  | nil =>
    intro _ l
    have : (fun e => q e && List.any [] fun h => decide (e.hour = some h)) =
        fun _ => false := by
      funext e
      simp
    simp [this]
  | cons h ks ih =>
    intro hnd l
    rcases List.nodup_cons.1 hnd with ⟨hh, hnd'⟩
    have hsplit : (fun e => q e && List.any (h :: ks) fun x => decide (e.hour = some x)) =
        fun e => (q e && decide (e.hour = some h)) ||
          (q e && ks.any fun x => decide (e.hour = some x)) := by
      funext e
      cases hq : q e <;> simp [List.any_cons, Bool.and_or_distrib_left]
    have hdisj : ∀ e, (q e && decide (e.hour = some h)) = true →
        (q e && ks.any fun x => decide (e.hour = some x)) = false := by
      intro e he
      rw [Bool.and_eq_true] at he
      rcases he with ⟨_, hh'⟩
      have heh : e.hour = some h := of_decide_eq_true hh'
      by_contra hcon
      have hcon' := Bool.of_not_eq_false hcon
      rw [Bool.and_eq_true] at hcon'
      rcases hcon' with ⟨_, hany⟩
      rcases List.any_eq_true.1 hany with ⟨x, hx, hex⟩
      have hsx : e.hour = some x := of_decide_eq_true hex
      rw [heh] at hsx
      have hxh : h = x := by simpa using hsx
      exact hh (hxh ▸ hx)
    rw [List.map_cons, List.sum_cons, ih hnd' l, hsplit,
      sum_filter_or_disjoint v _ _ hdisj]

theorem bool_and_right_comm (a b c : Bool) : ((a && b) && c) = ((a && c) && b) := by
  cases a <;> cases b <;> cases c <;> rfl

/-- Claim C1: for every competitor, the aggregated `fishCount` and
`totalWeight` are the sums of `fishCount` and `totalWeight` over exactly the
hourly entries of that competitor whose hour is one of the slots 1..7 and
whose status is one of the four counted statuses (any other status, e.g.
`draft`, contributes nothing), and `points = fishCount * 50 + totalWeight`. -/
theorem aggregation_totals_correct (snap : Snapshot) (comp : Competitor) :
    ((aggregate snap comp).fishCount =
      ((snap.hourlyEntries.filter fun e => decide (e.competitorId = comp.id) &&
          isCountedHour e.hour && countedStatus e.status).map (·.fishCount)).sum)
    ∧ ((aggregate snap comp).totalWeight =
      ((snap.hourlyEntries.filter fun e => decide (e.competitorId = comp.id) &&
          isCountedHour e.hour && countedStatus e.status).map (·.totalWeight)).sum)
    ∧ ((aggregate snap comp).points =
      (aggregate snap comp).fishCount * 50 + (aggregate snap comp).totalWeight)
    ∧ (countedStatus "draft" = false)
    ∧ (∀ st, countedStatus st = true ↔
        st = "locked_judge" ∨ st = "locked_admin" ∨ st = "offline_judge" ∨
          st = "offline_admin")
    ∧ (∀ s, sectorCalculated snap s = (sectorCompetitors snap s).map (aggregate snap)) := by
  have hpred : ∀ h : ℚ,
      (fun e : HourlyEntry => decide (e.competitorId = comp.id) &&
        decide (e.hour = some h) && countedStatus e.status) =
      (fun e : HourlyEntry => (decide (e.competitorId = comp.id) &&
        countedStatus e.status) && decide (e.hour = some h)) :=
    fun _ => funext fun _ => bool_and_right_comm _ _ _
  have hpred2 :
      (fun e : HourlyEntry => decide (e.competitorId = comp.id) &&
        (hours.any fun h => decide (e.hour = some h)) && countedStatus e.status) =
      (fun e : HourlyEntry => (decide (e.competitorId = comp.id) &&
        countedStatus e.status) && hours.any fun h => decide (e.hour = some h)) :=
    funext fun _ => bool_and_right_comm _ _ _
  refine ⟨?_, ?_, rfl, by decide, ?_, fun _ => rfl⟩
  · have hq := sum_over_hour_keys (fun e => e.fishCount)
      (fun e => decide (e.competitorId = comp.id) && countedStatus e.status)
      hours (by decide) snap.hourlyEntries
    show nbPrisesGlobal snap comp.id = _
    simp only [nbPrisesGlobal, entriesAt, isCountedHour]
    simp only [hpred, hpred2]
    exact hq
  · have hq := sum_over_hour_keys (fun e => e.totalWeight)
      (fun e => decide (e.competitorId = comp.id) && countedStatus e.status)
      hours (by decide) snap.hourlyEntries
    show poidsTotal snap comp.id = _
    simp only [poidsTotal, entriesAt, isCountedHour]
    simp only [hpred, hpred2]
    exact hq
  · intro st
    simp [countedStatus, countedStatuses, List.contains_cons]

/-- Claim C2: within a sector the coefficient is
`sectorTotalFish > 0 ? points * fishCount / sectorTotalFish : 0`, where the
denominator is the sum of the aggregated fish counts of the sector, and a
competitor with `fishCount = 0` always has coefficient `0`. -/
theorem coefficient_correct (snap : Snapshot) (s : String) :
    (sectorTotalNbPrises snap s =
      (((sectorCompetitors snap s).map (aggregate snap)).map (·.fishCount)).sum)
    ∧ ∀ c ∈ withCoefficients snap s,
        (c.coefficient = if 0 < sectorTotalNbPrises snap s then
            c.points * c.fishCount / sectorTotalNbPrises snap s else 0)
        ∧ (c.fishCount = 0 → c.coefficient = 0) := by
  refine ⟨rfl, ?_⟩
  intro c hc
  rcases List.mem_map.1 hc with ⟨c₀, _, rfl⟩
  refine ⟨rfl, ?_⟩
  intro h0
  have h0' : c₀.fishCount = 0 := h0
  show (if 0 < sectorTotalNbPrises snap s then
      c₀.points * c₀.fishCount / sectorTotalNbPrises snap s else 0) = 0
  rw [h0']
  split <;> simp

/-- A sample snapshot, used to witness theorems with hypotheses: the scenario
of spec §8 (sector A, three competitors, a draft entry that must not count)
plus one counted big catch. -/
def sampleSnap : Snapshot :=
  { competitors :=
      [ { id := "c1", fullName := "c1", equipe := "", boxNumber := 1, boxCode := "A01",
          sector := some "A", photo := "" }
      , { id := "c2", fullName := "c2", equipe := "", boxNumber := 2, boxCode := "A02",
          sector := some "A", photo := "" }
      , { id := "c3", fullName := "c3", equipe := "", boxNumber := 3, boxCode := "A03",
          sector := some "A", photo := "" } ]
    hourlyEntries :=
      [ { competitorId := "c1", hour := some 1, fishCount := 2, totalWeight := 10,
          status := "locked_judge" }
      , { competitorId := "c3", hour := some 2, fishCount := 5, totalWeight := 3,
          status := "locked_admin" }
      , { competitorId := "c2", hour := some 3, fishCount := 9, totalWeight := 9,
          status := "draft" } ]
    bigCatches :=
      [ { competitorId := "c1", biggestCatch := 4, status := "locked_judge" } ] }

/-- The chip of competitor `c1` of `sampleSnap` as produced by the coefficient
stage. -/
def sampleChip1 : CompetitorChip :=
  { id := "c1", name := "c1", equipe := "", boxNumber := 1, boxCode := "A01",
    sector := some "A", photo := "", fishCount := 2, totalWeight := 10,
    biggestCatch := 4, points := 110, coefficient := 220 / 7,
    classementSecteur := 0, classementGeneral := 0 }

/-- Witness for C2 at the sample snapshot. -/
theorem coefficient_correct_witness :
    (sampleChip1.coefficient = if 0 < sectorTotalNbPrises sampleSnap "A" then
        sampleChip1.points * sampleChip1.fishCount / sectorTotalNbPrises sampleSnap "A"
      else 0)
    ∧ (sampleChip1.fishCount = 0 → sampleChip1.coefficient = 0) :=
  (coefficient_correct sampleSnap "A").2 sampleChip1 (by
    simp [withCoefficients, sectorCalculated, sectorCompetitors, aggregate,
      nbPrisesGlobal, poidsTotal, entriesAt, grossePrise, grossePriseEntry,
      sectorTotalNbPrises, hours, sampleSnap, sampleChip1, countedStatus,
      countedStatuses, List.filter_cons, List.find?]
    norm_num)

/-! ### Rank assignment lemmas -/

theorem map_rank_assignSectorRanks :
    ∀ (l : List CompetitorChip) (i : ℕ),
      (assignSectorRanks i l).map (·.classementSecteur) = List.range' (i + 1) l.length := by
  intro l
  induction l with
  | nil => intro i; rfl
  | cons c cs ih =>
    intro i
    simp only [assignSectorRanks, List.map_cons, List.length_cons, List.range'_succ, ih]

theorem map_eraseSR_assignSectorRanks :
    ∀ (l : List CompetitorChip) (i : ℕ),
      (assignSectorRanks i l).map eraseSR = l.map eraseSR := by
  intro l
  induction l with
  | nil => intro i; rfl
  | cons c cs ih =>
    intro i
    simp only [assignSectorRanks, List.map_cons, ih]
    rfl

theorem map_rank_assignGeneralRanks :
    ∀ (l : List CompetitorChip) (i : ℕ),
      (assignGeneralRanks i l).map (·.classementGeneral) = List.range' (i + 1) l.length := by
  intro l
  induction l with
  | nil => intro i; rfl
  | cons c cs ih =>
    intro i
    simp only [assignGeneralRanks, List.map_cons, List.length_cons, List.range'_succ, ih]

theorem map_eraseGR_assignGeneralRanks :
    ∀ (l : List CompetitorChip) (i : ℕ),
      (assignGeneralRanks i l).map eraseGR = l.map eraseGR := by
  intro l
  induction l with
  | nil => intro i; rfl
  | cons c cs ih =>
    intro i
    simp only [assignGeneralRanks, List.map_cons, ih]
    rfl

theorem pointsGe_total (a b : CompetitorChip) :
    pointsGe a b = true ∨ pointsGe b a = true := by
  unfold pointsGe
  rcases le_total b.points a.points with h | h
  · exact Or.inl (decide_eq_true h)
  · exact Or.inr (decide_eq_true h)

theorem pointsGe_trans (a b c : CompetitorChip) :
    pointsGe a b = true → pointsGe b c = true → pointsGe a c = true := by
  unfold pointsGe
  intro h₁ h₂
  exact decide_eq_true (le_trans (of_decide_eq_true h₂) (of_decide_eq_true h₁))

/-- Claim C3: sector ranks are the 1-based positions of the stable descending
sort by points — so they are exactly `1..n` (no gaps, no duplicates), the
ranked list is descending by points, it is a permutation of the sector's
chips, equal-points chips keep their encounter order, and rank assignment
changes no other field. -/
theorem sector_rank_contiguous (snap : Snapshot) (s : String) :
    ((sectorCalculations snap s).map (·.classementSecteur) =
      List.range' 1 (sectorCompetitors snap s).length)
    ∧ List.Pairwise (fun a b : CompetitorChip => b.points ≤ a.points) (sectorSorted snap s)
    ∧ List.Perm (sectorSorted snap s) (withCoefficients snap s)
    ∧ (∀ k : ℚ, ((sectorSorted snap s).filter fun c => decide (c.points = k)) =
        (withCoefficients snap s).filter fun c => decide (c.points = k))
    ∧ ((sectorCalculations snap s).map eraseSR = (sectorSorted snap s).map eraseSR) := by
  refine ⟨?_, ?_, sortBy_perm _ _, ?_, map_eraseSR_assignSectorRanks _ 0⟩
  · rw [sectorCalculations, map_rank_assignSectorRanks]
    congr 1
    calc (sectorSorted snap s).length
        = (withCoefficients snap s).length := (sortBy_perm _ _).length_eq
      _ = (sectorCompetitors snap s).length := by
          simp [withCoefficients, sectorCalculated]
  · exact (pairwise_sortBy pointsGe pointsGe_total pointsGe_trans _).imp
      fun h => of_decide_eq_true h
  · intro k
    refine filter_sortBy pointsGe _ ?_ _
    intro a b ha hb
    have ha' : a.points = k := of_decide_eq_true ha
    have hb' : b.points = k := of_decide_eq_true hb
    exact decide_eq_true (by rw [ha', hb'])

/-! ### The place-group comparator and general-ranking structure -/

theorem coeffGe_total (a b : CompetitorChip) :
    coeffGe a b = true ∨ coeffGe b a = true := by
  unfold coeffGe
  by_cases hc : a.coefficient = b.coefficient
  · rw [if_pos hc, if_pos hc.symm]
    rcases le_total b.biggestCatch a.biggestCatch with h | h
    · exact Or.inl (decide_eq_true h)
    · exact Or.inr (decide_eq_true h)
  · rw [if_neg hc, if_neg (Ne.symm hc)]
    rcases lt_or_gt_of_ne hc with h | h
    · exact Or.inr (decide_eq_true h)
    · exact Or.inl (decide_eq_true h)

theorem coeffGe_trans (a b c : CompetitorChip) :
    coeffGe a b = true → coeffGe b c = true → coeffGe a c = true := by
  unfold coeffGe
  intro h₁ h₂
  by_cases hab : a.coefficient = b.coefficient
  · rw [if_pos hab] at h₁
    by_cases hbc : b.coefficient = c.coefficient
    · rw [if_pos hbc] at h₂
      rw [if_pos (hab.trans hbc)]
      exact decide_eq_true (le_trans (of_decide_eq_true h₂) (of_decide_eq_true h₁))
    · rw [if_neg hbc] at h₂
      have hlt : c.coefficient < a.coefficient := hab ▸ of_decide_eq_true h₂
      rw [if_neg (ne_of_gt hlt)]
      exact decide_eq_true hlt
  · rw [if_neg hab] at h₁
    have hba : b.coefficient < a.coefficient := of_decide_eq_true h₁
    by_cases hbc : b.coefficient = c.coefficient
    · have hlt : c.coefficient < a.coefficient := hbc ▸ hba
      rw [if_neg (ne_of_gt hlt)]
      exact decide_eq_true hlt
    · rw [if_neg hbc] at h₂
      have hlt : c.coefficient < a.coefficient := lt_trans (of_decide_eq_true h₂) hba
      rw [if_neg (ne_of_gt hlt)]
      exact decide_eq_true hlt

theorem coeffGe_elim {a b : CompetitorChip} (h : coeffGe a b = true) :
    b.coefficient < a.coefficient ∨
      (a.coefficient = b.coefficient ∧ b.biggestCatch ≤ a.biggestCatch) := by
  unfold coeffGe at h
  by_cases hc : a.coefficient = b.coefficient
  · rw [if_pos hc] at h
    exact Or.inr ⟨hc, of_decide_eq_true h⟩
  · rw [if_neg hc] at h
    exact Or.inl (of_decide_eq_true h)

theorem sector_of_mem_sectorCalculations {snap : Snapshot} {s : String}
    {c : CompetitorChip} (hc : c ∈ sectorCalculations snap s) : c.sector = some s := by
  have h₁ : eraseSR c ∈ (sectorSorted snap s).map eraseSR := by
    rw [← map_eraseSR_assignSectorRanks _ 0]
    exact List.mem_map_of_mem eraseSR hc
  rcases List.mem_map.1 h₁ with ⟨c₁, hc₁, he₁⟩
  have hsec₁ : c₁.sector = c.sector := by
    have h := congrArg CompetitorChip.sector he₁
    simp only [eraseSR] at h
    exact h
  have hc₂ : c₁ ∈ withCoefficients snap s := ((sortBy_perm _ _).mem_iff).1 hc₁
  rcases List.mem_map.1 hc₂ with ⟨c₂, hc₂', rfl⟩
  rcases List.mem_map.1 hc₂' with ⟨comp, hcomp, rfl⟩
  have := (List.mem_filter.1 hcomp).2
  have hsec : comp.sector = some s := of_decide_eq_true this
  rw [← hsec₁]
  exact hsec

theorem pairwise_sector_ne_filterMap (g : String → Option CompetitorChip)
    (hg : ∀ t y, g t = some y → y.sector = some t) :
    ∀ L : List String, L.Nodup →
      List.Pairwise (fun a b : CompetitorChip => a.sector ≠ b.sector) (L.filterMap g) := by
  intro L
  induction L with
  | nil => intro _; simp
  | cons t L ih =>
    intro hnd
    rcases List.nodup_cons.1 hnd with ⟨ht, hnd'⟩
    rw [List.filterMap_cons]
    cases hgt : g t with
    | none => exact ih hnd'
    | some y =>
      refine List.pairwise_cons.2 ⟨?_, ih hnd'⟩
      intro z hz
      rcases List.mem_filterMap.1 hz with ⟨t', ht', hgt'⟩
      rw [hg t y hgt, hg t' z hgt']
      intro hcon
      have : t = t' := by simpa using hcon
      exact ht (this ▸ ht')

/-- Claim C4: the general-ranking sequence is the concatenation over places
1..20 of place-groups (at most one competitor per sector — the one whose
sector rank equals the place), each group sorted descending by coefficient
with remaining ties broken descending by biggest catch; a singleton group
passes through unchanged. -/
theorem general_ranking_structure (snap : Snapshot) :
    (generalRanking snap =
      (places.map fun place => sortBy coeffGe (placeGroup snap place)).flatten)
    ∧ (places = List.range' 1 20)
    ∧ (∀ place, placeGroup snap place =
        sectors.filterMap fun s =>
          (sectorCalculations snap s).find? fun c => decide (c.classementSecteur = place))
    ∧ (∀ place, List.Pairwise (fun a b : CompetitorChip => a.sector ≠ b.sector)
        (placeGroup snap place))
    ∧ (∀ l : List CompetitorChip, List.Perm (sortBy coeffGe l) l)
    ∧ (∀ l : List CompetitorChip, List.Pairwise
        (fun a b : CompetitorChip => b.coefficient < a.coefficient ∨
          (a.coefficient = b.coefficient ∧ b.biggestCatch ≤ a.biggestCatch))
        (sortBy coeffGe l))
    ∧ (∀ c : CompetitorChip, sortBy coeffGe [c] = [c]) := by
  refine ⟨rfl, rfl, fun _ => rfl, ?_, fun l => sortBy_perm _ l, ?_, fun _ => rfl⟩
  · intro place
    refine pairwise_sector_ne_filterMap _ ?_ sectors (by decide)
    intro t y hy
    exact sector_of_mem_sectorCalculations (List.mem_of_find?_eq_some hy)
  · intro l
    exact (pairwise_sortBy coeffGe coeffGe_total coeffGe_trans l).imp
      fun h => coeffGe_elim h

/-- Claim C5: after the sequence is built, the coefficient-positive
competitors get general ranks `1..count` in sequence order, every
zero-coefficient competitor gets the fixed sentinel rank 120, and the rank
assignment changes no other field. -/
theorem general_rank_partition (snap : Snapshot) :
    ((nonZeroRanked snap).map (·.classementGeneral) =
      List.range' 1 (nonZeroCompetitors snap).length)
    ∧ ((zeroRanked snap).map (·.classementGeneral) =
      List.replicate (zeroCoeffCompetitors snap).length sentinelRank)
    ∧ ((nonZeroRanked snap).map eraseGR = (nonZeroCompetitors snap).map eraseGR)
    ∧ ((zeroRanked snap).map eraseGR = (zeroCoeffCompetitors snap).map eraseGR)
    ∧ (nonZeroCompetitors snap =
        (generalRanking snap).filter fun c => decide (0 < c.coefficient))
    ∧ (zeroCoeffCompetitors snap =
        (generalRanking snap).filter fun c => decide (c.coefficient = 0))
    ∧ sentinelRank = 120 := by
  refine ⟨map_rank_assignGeneralRanks _ 0, ?_, map_eraseGR_assignGeneralRanks _ 0, ?_,
    rfl, rfl, rfl⟩
  · rw [zeroRanked, List.map_map]
    have : ((·.classementGeneral) ∘ fun c : CompetitorChip =>
        { c with classementGeneral := sentinelRank }) = fun _ => sentinelRank := rfl
    rw [this, List.map_const']
  · rw [zeroRanked, List.map_map]
    rfl

/-! ### Big catch lookup -/

theorem find?_eq_head_filter (p : α → Bool) :
    ∀ l : List α, l.find? p = (l.filter p).head? := by
  intro l
  induction l with
  | nil => rfl
  | cons a l ih =>
    cases hp : p a
    · rw [List.find?_cons_of_neg _ (by simp [hp]), List.filter_cons, if_neg (by simp [hp]), ih]
    · rw [List.find?_cons_of_pos _ hp, List.filter_cons, if_pos (by simp [hp])]
      rfl

/-- Claim C7: the computed biggest catch is 0 when the competitor has no
counted big-catch record, and is the value of that record when exactly one
counted big-catch record exists. -/
theorem biggest_catch_correct (snap : Snapshot) (comp : Competitor) :
    ((snap.bigCatches.filter fun e =>
        decide (e.competitorId = comp.id) && countedStatus e.status) = [] →
      (aggregate snap comp).biggestCatch = 0)
    ∧ ∀ e : BigCatchEntry,
        (snap.bigCatches.filter fun e =>
          decide (e.competitorId = comp.id) && countedStatus e.status) = [e] →
        (aggregate snap comp).biggestCatch = e.biggestCatch := by
  constructor
  · intro hnil
    show grossePrise snap comp.id = 0
    rw [grossePrise, grossePriseEntry, find?_eq_head_filter, hnil]
    rfl
  · intro e hone
    show grossePrise snap comp.id = e.biggestCatch
    rw [grossePrise, grossePriseEntry, find?_eq_head_filter, hone]
    rfl

/-- Witness for C7: competitor `c1` of the sample snapshot has exactly one
counted big catch, of weight 4; competitor `c2` has none. -/
theorem biggest_catch_correct_witness :
    (aggregate sampleSnap (sampleSnap.competitors.get ⟨0, by decide⟩)).biggestCatch =
      ({ competitorId := "c1", biggestCatch := 4, status := "locked_judge" } :
        BigCatchEntry).biggestCatch
    ∧ (aggregate sampleSnap (sampleSnap.competitors.get ⟨1, by decide⟩)).biggestCatch = 0 := by
  constructor
  · exact (biggest_catch_correct sampleSnap _).2 _ (by
      simp [sampleSnap, countedStatus, countedStatuses, List.filter_cons])
  · exact (biggest_catch_correct sampleSnap _).1 (by
      simp [sampleSnap, countedStatus, countedStatuses, List.filter_cons])

/-! ### Determinism -/

/-- Claim C9: the standings are a deterministic pure function of the snapshot
collections — equal inputs give identical output, and the sector sort result
is the unique stable descending-by-points ordering, so any recomputation (or
any correct stable sort implementation) reproduces it exactly. -/
theorem standings_deterministic :
    (∀ s₁ s₂ : Snapshot, s₁.competitors = s₂.competitors →
      s₁.hourlyEntries = s₂.hourlyEntries → s₁.bigCatches = s₂.bigCatches →
      ∀ sec, competitorsBySector s₁ sec = competitorsBySector s₂ sec)
    ∧ (∀ (snap : Snapshot) (s : String) (l : List CompetitorChip),
        List.Pairwise (fun a b : CompetitorChip => b.points ≤ a.points) l →
        (∀ k : ℚ, (l.filter fun c => decide (c.points = k)) =
          (withCoefficients snap s).filter fun c => decide (c.points = k)) →
        l = sectorSorted snap s) := by
  constructor
  · intro s₁ s₂ h₁ h₂ h₃ sec
    cases s₁
    cases s₂
    dsimp at h₁ h₂ h₃
    rw [h₁, h₂, h₃]
  · intro snap s l hl hfilt
    have hsorted₂ : List.Pairwise (fun a b : CompetitorChip => b.points ≤ a.points)
        (sectorSorted snap s) :=
      (pairwise_sortBy pointsGe pointsGe_total pointsGe_trans _).imp
        fun h => of_decide_eq_true h
    have hfilt₂ : ∀ k : ℚ, ((sectorSorted snap s).filter fun c => decide (c.points = k)) =
        (withCoefficients snap s).filter fun c => decide (c.points = k) := by
      intro k
      refine filter_sortBy pointsGe _ ?_ _
      intro a b ha hb
      have ha' : a.points = k := of_decide_eq_true ha
      have hb' : b.points = k := of_decide_eq_true hb
      exact decide_eq_true (by rw [ha', hb'])
    exact sorted_eq_of_filter_eq (fun c : CompetitorChip => c.points) l
      (sectorSorted snap s) hl hsorted₂ (fun k => (hfilt k).trans (hfilt₂ k).symm)

/-- Witness for C9: recomputing the sample snapshot's standings is an
identical result. -/
theorem standings_deterministic_witness :
    competitorsBySector sampleSnap "A" = competitorsBySector sampleSnap "A" :=
  standings_deterministic.1 sampleSnap sampleSnap rfl rfl rfl "A"

/-! ### Malformed input is isolated -/

theorem filterMap_congr_mem {f g : α → Option β} :
    ∀ l : List α, (∀ a ∈ l, f a = g a) → l.filterMap f = l.filterMap g := by
  intro l
  induction l with
  | nil => intro _; rfl
  | cons a l ih =>
    intro h
    rw [List.filterMap_cons, List.filterMap_cons, h a (List.mem_cons_self a l),
      ih fun x hx => h x (List.mem_cons_of_mem a hx)]

theorem mem_generalRanking {snap : Snapshot} {z : CompetitorChip}
    (hz : z ∈ generalRanking snap) : ∃ t ∈ sectors, z ∈ sectorCalculations snap t := by
  rw [generalRanking, List.mem_flatten] at hz
  rcases hz with ⟨l, hl, hzl⟩
  rcases List.mem_map.1 hl with ⟨p, _, rfl⟩
  have hzp : z ∈ placeGroup snap p := ((sortBy_perm _ _).mem_iff).1 hzl
  rcases List.mem_filterMap.1 hzp with ⟨t, ht, hfind⟩
  exact ⟨t, ht, List.mem_of_find?_eq_some hfind⟩

theorem mem_allRanked_sector {snap : Snapshot} {z : CompetitorChip}
    (hz : z ∈ allRanked snap) : ∃ y ∈ generalRanking snap, z.sector = y.sector := by
  rcases List.mem_append.1 hz with h | h
  · have h₁ : eraseGR z ∈ (nonZeroCompetitors snap).map eraseGR := by
      rw [← map_eraseGR_assignGeneralRanks _ 0]
      exact List.mem_map_of_mem eraseGR h
    rcases List.mem_map.1 h₁ with ⟨y, hy, he⟩
    refine ⟨y, List.mem_of_mem_filter hy, ?_⟩
    have := congrArg CompetitorChip.sector he
    simpa [eraseGR] using this.symm
  · rcases List.mem_map.1 h with ⟨y, hy, rfl⟩
    exact ⟨y, List.mem_of_mem_filter hy, rfl⟩

/-- Claim C8: malformed input is isolated, not fatal — an hourly entry whose
hour is missing (`none`) or not a slot in 1..7 changes no aggregate, a
competitor whose sector is missing or not one of A–F changes no sector's
output, and an empty sector yields an empty standings list. -/
theorem malformed_input_isolated :
    (∀ (cs : List Competitor) (l₁ l₂ : List HourlyEntry) (bs : List BigCatchEntry)
        (e : HourlyEntry) (comp : Competitor), isCountedHour e.hour = false →
        aggregate ⟨cs, l₁ ++ e :: l₂, bs⟩ comp = aggregate ⟨cs, l₁ ++ l₂, bs⟩ comp)
    ∧ (∀ (c : Competitor) (cs : List Competitor) (hs : List HourlyEntry)
        (bs : List BigCatchEntry), (∀ t ∈ sectors, ¬ c.sector = some t) →
        ∀ sec, competitorsBySector ⟨c :: cs, hs, bs⟩ sec =
          competitorsBySector ⟨cs, hs, bs⟩ sec)
    ∧ (∀ (snap : Snapshot) (s : String), sectorCompetitors snap s = [] →
        sectorCalculations snap s = [] ∧ competitorsBySector snap s = []) := by
  refine ⟨?_, ?_, ?_⟩
  · intro cs l₁ l₂ bs e comp he
    have hany : ∀ h ∈ hours, decide (e.hour = some h) = false := by
      rw [isCountedHour, List.any_eq_false] at he
      intro h hh
      simpa using he h hh
    have hfilter : ∀ h ∈ hours,
        entriesAt ⟨cs, l₁ ++ e :: l₂, bs⟩ comp.id h =
          entriesAt ⟨cs, l₁ ++ l₂, bs⟩ comp.id h := by
      intro h hh
      show (l₁ ++ e :: l₂).filter _ = (l₁ ++ l₂).filter _
      rw [List.filter_append, List.filter_append, List.filter_cons,
        if_neg (by simp [hany h hh])]
    have h₁ : nbPrisesGlobal ⟨cs, l₁ ++ e :: l₂, bs⟩ comp.id =
        nbPrisesGlobal ⟨cs, l₁ ++ l₂, bs⟩ comp.id := by
      rw [nbPrisesGlobal, nbPrisesGlobal]
      congr 1
      exact List.map_congr_left fun h hh => by rw [hfilter h hh]
    have h₂ : poidsTotal ⟨cs, l₁ ++ e :: l₂, bs⟩ comp.id =
        poidsTotal ⟨cs, l₁ ++ l₂, bs⟩ comp.id := by
      rw [poidsTotal, poidsTotal]
      congr 1
      exact List.map_congr_left fun h hh => by rw [hfilter h hh]
    simp only [aggregate, h₁, h₂]
    rfl
  · intro c cs hs bs hc sec
    have hagg : aggregate ⟨c :: cs, hs, bs⟩ = aggregate ⟨cs, hs, bs⟩ :=
      funext fun _ => rfl
    have hcalc : ∀ t ∈ sectors,
        sectorCalculations ⟨c :: cs, hs, bs⟩ t = sectorCalculations ⟨cs, hs, bs⟩ t := by
      intro t ht
      have hcomp : sectorCompetitors ⟨c :: cs, hs, bs⟩ t =
          sectorCompetitors ⟨cs, hs, bs⟩ t := by
        show (c :: cs).filter _ = cs.filter _
        rw [List.filter_cons, if_neg (by simp [hc t ht])]
      have hcd : sectorCalculated ⟨c :: cs, hs, bs⟩ t =
          sectorCalculated ⟨cs, hs, bs⟩ t := by
        rw [sectorCalculated, sectorCalculated, hcomp, hagg]
      simp only [sectorCalculations, sectorSorted, withCoefficients,
        sectorTotalNbPrises, hcd]
    have hpg : ∀ p, placeGroup ⟨c :: cs, hs, bs⟩ p = placeGroup ⟨cs, hs, bs⟩ p := by
      intro p
      refine filterMap_congr_mem sectors ?_
      intro t ht
      show (sectorCalculations ⟨c :: cs, hs, bs⟩ t).find? _ = _
      rw [hcalc t ht]
      rfl
    have hGR : generalRanking ⟨c :: cs, hs, bs⟩ = generalRanking ⟨cs, hs, bs⟩ := by
      rw [generalRanking, generalRanking]
      congr 1
      exact List.map_congr_left fun p _ => by rw [hpg p]
    simp only [competitorsBySector, allRanked, nonZeroRanked, zeroRanked,
      nonZeroCompetitors, zeroCoeffCompetitors, hGR]
  · intro snap s hempty
    have hcalc : sectorCalculations snap s = [] := by
      simp [sectorCalculations, sectorSorted, withCoefficients, sectorCalculated,
        hempty, sortBy, assignSectorRanks]
    refine ⟨hcalc, ?_⟩
    have hfilter : (allRanked snap).filter (fun z => decide (z.sector = some s)) = [] := by
      rw [List.filter_eq_nil_iff]
      intro z hzmem
      rcases mem_allRanked_sector hzmem with ⟨y, hy, hsec⟩
      rcases mem_generalRanking hy with ⟨t, _, hyt⟩
      have hyts : y.sector = some t := sector_of_mem_sectorCalculations hyt
      simp only [decide_eq_true_eq]
      intro hzs
      have : some t = some s := by rw [← hyts, ← hsec, hzs]
      have hts : t = s := by simpa using this
      rw [hts, hcalc] at hyt
      exact absurd hyt (List.not_mem_nil y)
    rw [competitorsBySector, hfilter]
    rfl

/-- An hourly entry with a missing hour field and a counted status. -/
def missingHourEntry : HourlyEntry :=
  { competitorId := "c1", hour := none, fishCount := 9, totalWeight := 9,
    status := "locked_judge" }

/-- A competitor record with a missing sector field. -/
def missingSectorComp : Competitor :=
  { id := "c9", fullName := "c9", equipe := "", boxNumber := 9, boxCode := "",
    sector := none, photo := "" }

/-- A competitor record of sector A. -/
def compA1 : Competitor :=
  { id := "c1", fullName := "c1", equipe := "", boxNumber := 1, boxCode := "",
    sector := some "A", photo := "" }

/-- Witness for C8: an entry with a missing hour changes nothing, a competitor
with a missing sector changes nothing, and the empty snapshot's sector A
standings are empty. -/
theorem malformed_input_isolated_witness :
    (aggregate ⟨[], [missingHourEntry], []⟩ compA1 = aggregate ⟨[], [], []⟩ compA1)
    ∧ (competitorsBySector ⟨[missingSectorComp], [], []⟩ "A" =
      competitorsBySector ⟨[], [], []⟩ "A")
    ∧ (sectorCalculations ⟨[], [], []⟩ "A" = []
        ∧ competitorsBySector ⟨[], [], []⟩ "A" = []) :=
  ⟨malformed_input_isolated.1 [] [] [] [] missingHourEntry compA1
      (by simp [isCountedHour, hours, missingHourEntry]),
   malformed_input_isolated.2.1 missingSectorComp [] [] []
      (by simp [missingSectorComp]) "A",
   malformed_input_isolated.2.2 ⟨[], [], []⟩ "A" rfl⟩

/-! ### Locating a ranked chip in the general ranking -/

theorem rank_bounds_assignSectorRanks :
    ∀ (l : List CompetitorChip) (i : ℕ) (c : CompetitorChip),
      c ∈ assignSectorRanks i l →
      i + 1 ≤ c.classementSecteur ∧ c.classementSecteur ≤ i + l.length := by
  intro l
  induction l with
  | nil => intro i c hc; cases hc
  | cons a as ih =>
    intro i c hc
    rcases List.mem_cons.1 hc with h | h
    · subst h
      refine ⟨le_refl _, ?_⟩
      show i + 1 ≤ i + (as.length + 1)
      omega
    · rcases ih (i + 1) c h with ⟨h₁, h₂⟩
      refine ⟨le_trans (Nat.le_succ _) h₁, ?_⟩
      show c.classementSecteur ≤ i + (as.length + 1)
      omega

theorem find?_assignSectorRanks :
    ∀ (l : List CompetitorChip) (i : ℕ) (c : CompetitorChip),
      c ∈ assignSectorRanks i l →
      (assignSectorRanks i l).find?
        (fun y => decide (y.classementSecteur = c.classementSecteur)) = some c := by
  intro l
  induction l with
  | nil => intro i c hc; cases hc
  | cons a as ih =>
    intro i c hc
    rcases List.mem_cons.1 hc with h | h
    · rw [assignSectorRanks, List.find?_cons_of_pos _ (by rw [h]; simp)]
      rw [h]
    · have hlow := (rank_bounds_assignSectorRanks as (i + 1) c h).1
      rw [assignSectorRanks, List.find?_cons_of_neg, ih (i + 1) c h]
      simp only [decide_eq_true_eq]
      show ¬ (i + 1 = c.classementSecteur)
      omega

theorem competitorAtPlace_self {snap : Snapshot} {s : String} {c : CompetitorChip}
    (hc : c ∈ sectorCalculations snap s) :
    competitorAtPlace snap s c.classementSecteur = some c :=
  find?_assignSectorRanks _ 0 c hc

theorem rank_bounds_sectorCalculations {snap : Snapshot} {s : String}
    {c : CompetitorChip} (hc : c ∈ sectorCalculations snap s) :
    1 ≤ c.classementSecteur ∧ c.classementSecteur ≤ (sectorCompetitors snap s).length := by
  rcases rank_bounds_assignSectorRanks _ 0 c hc with ⟨h₁, h₂⟩
  refine ⟨h₁, le_trans h₂ ?_⟩
  have : (sectorSorted snap s).length = (sectorCompetitors snap s).length := by
    rw [sectorSorted, (sortBy_perm _ _).length_eq]
    simp [withCoefficients, sectorCalculated]
  simp [this]

theorem mem_placeGroup_self {snap : Snapshot} {s : String} {c : CompetitorChip}
    (hs : s ∈ sectors) (hc : c ∈ sectorCalculations snap s) :
    c ∈ placeGroup snap c.classementSecteur :=
  List.mem_filterMap.2 ⟨s, hs, competitorAtPlace_self hc⟩

theorem mem_generalRanking_of_rank {snap : Snapshot} {s : String} {c : CompetitorChip}
    (hs : s ∈ sectors) (hc : c ∈ sectorCalculations snap s)
    (h20 : c.classementSecteur ≤ 20) : c ∈ generalRanking snap := by
  have h₁ : 1 ≤ c.classementSecteur := (rank_bounds_sectorCalculations hc).1
  rw [generalRanking, List.mem_flatten]
  refine ⟨sortBy coeffGe (placeGroup snap c.classementSecteur), ?_,
    ((sortBy_perm _ _).mem_iff).2 (mem_placeGroup_self hs hc)⟩
  refine List.mem_map_of_mem _ ?_
  rw [places, List.mem_range'_1]
  omega

/-- Every ranked chip is, up to its sector-rank field, a chip of the
coefficient stage. -/
theorem mem_sectorCalculations_eraseSR {snap : Snapshot} {s : String}
    {c : CompetitorChip} (hc : c ∈ sectorCalculations snap s) :
    ∃ c₁ ∈ withCoefficients snap s, eraseSR c₁ = eraseSR c := by
  have h₁ : eraseSR c ∈ (sectorSorted snap s).map eraseSR := by
    rw [← map_eraseSR_assignSectorRanks _ 0]
    exact List.mem_map_of_mem eraseSR hc
  rcases List.mem_map.1 h₁ with ⟨c₁, hc₁, he₁⟩
  exact ⟨c₁, ((sortBy_perm _ _).mem_iff).1 hc₁, he₁⟩

/-! ### Non-negativity of the aggregates -/

theorem nbPrisesGlobal_nonneg {snap : Snapshot} (hnn : NonnegEntries snap)
    (cid : String) : 0 ≤ nbPrisesGlobal snap cid := by
  refine List.sum_nonneg ?_
  intro x hx
  rcases List.mem_map.1 hx with ⟨h, _, rfl⟩
  refine List.sum_nonneg ?_
  intro v hv
  rcases List.mem_map.1 hv with ⟨e, he, rfl⟩
  exact (hnn e (List.mem_of_mem_filter he)).1

theorem poidsTotal_nonneg {snap : Snapshot} (hnn : NonnegEntries snap)
    (cid : String) : 0 ≤ poidsTotal snap cid := by
  refine List.sum_nonneg ?_
  intro x hx
  rcases List.mem_map.1 hx with ⟨h, _, rfl⟩
  refine List.sum_nonneg ?_
  intro v hv
  rcases List.mem_map.1 hv with ⟨e, he, rfl⟩
  exact (hnn e (List.mem_of_mem_filter he)).2

theorem sectorTotalNbPrises_nonneg {snap : Snapshot} (hnn : NonnegEntries snap)
    (s : String) : 0 ≤ sectorTotalNbPrises snap s := by
  refine List.sum_nonneg ?_
  intro x hx
  rcases List.mem_map.1 hx with ⟨c, hc, rfl⟩
  rcases List.mem_map.1 hc with ⟨comp, _, rfl⟩
  exact nbPrisesGlobal_nonneg hnn comp.id

theorem coefficient_nonneg {snap : Snapshot} {s : String} {c : CompetitorChip}
    (hnn : NonnegEntries snap) (hc : c ∈ sectorCalculations snap s) :
    0 ≤ c.coefficient := by
  rcases mem_sectorCalculations_eraseSR hc with ⟨c₁, hc₁, he⟩
  have hco : c₁.coefficient = c.coefficient := by
    have := congrArg CompetitorChip.coefficient he
    simpa [eraseSR] using this
  rw [← hco]
  rcases List.mem_map.1 hc₁ with ⟨c₀, hc₀, rfl⟩
  rcases List.mem_map.1 hc₀ with ⟨comp, _, rfl⟩
  show 0 ≤ (if 0 < sectorTotalNbPrises snap s then
    (aggregate snap comp).points * (aggregate snap comp).fishCount /
      sectorTotalNbPrises snap s else 0)
  split
  · have hfish : (0:ℚ) ≤ (aggregate snap comp).fishCount := nbPrisesGlobal_nonneg hnn comp.id
    have hpts : (0:ℚ) ≤ (aggregate snap comp).points :=
      add_nonneg (mul_nonneg (nbPrisesGlobal_nonneg hnn comp.id) (by norm_num))
        (poidsTotal_nonneg hnn comp.id)
    exact div_nonneg (mul_nonneg hpts hfish) (le_of_lt (by assumption))
  · exact le_refl 0

/-! ### Counting occurrences through the pipeline -/

/-- The occurrence predicate for claim C10: `y` is the same chip as `c` up to
the general-rank field. -/
def sameChip (c y : CompetitorChip) : Bool := decide (eraseGR y = eraseGR c)

theorem sameChip_fields {c y : CompetitorChip} (h : sameChip c y = true) :
    y.classementSecteur = c.classementSecteur ∧ y.sector = c.sector ∧
      y.coefficient = c.coefficient := by
  have he : eraseGR y = eraseGR c := of_decide_eq_true h
  refine ⟨?_, ?_, ?_⟩
  · have := congrArg CompetitorChip.classementSecteur he
    simpa [eraseGR] using this
  · have := congrArg CompetitorChip.sector he
    simpa [eraseGR] using this
  · have := congrArg CompetitorChip.coefficient he
    simpa [eraseGR] using this

theorem countP_flatten (p : α → Bool) :
    ∀ L : List (List α), (L.flatten).countP p = (L.map (List.countP p)).sum := by
  intro L
  induction L with
  | nil => rfl
  | cons l L ih => simp [List.flatten_cons, List.countP_append, ih]

theorem countP_filter_of_imp (p b : α → Bool) (h : ∀ y, p y = true → b y = true) :
    ∀ l : List α, (l.filter b).countP p = l.countP p := by
  intro l
  induction l with
  | nil => rfl
  | cons a l ih =>
    cases hb : b a
    · have hp : p a = false := by
        cases hp : p a
        · rfl
        · exact absurd (h a hp) (by simp [hb])
      rw [List.filter_cons, if_neg (by simp [hb]), ih, List.countP_cons, hp]
      simp
    · rw [List.filter_cons, if_pos (by simp [hb]), List.countP_cons, List.countP_cons, ih]

theorem countP_filter_of_contra (p b : α → Bool) (h : ∀ y, b y = true → p y = false) :
    ∀ l : List α, (l.filter b).countP p = 0 := by
  intro l
  rw [List.countP_eq_zero]
  intro a ha
  have hb : b a = true := by
    have := List.mem_filter.1 ha
    exact this.2
  simp [h a hb]

theorem countP_assignGeneralRanks (c : CompetitorChip) :
    ∀ (l : List CompetitorChip) (i : ℕ),
      (assignGeneralRanks i l).countP (sameChip c) = l.countP (sameChip c) := by
  intro l
  induction l with
  | nil => intro i; rfl
  | cons a as ih =>
    intro i
    rw [assignGeneralRanks, List.countP_cons, List.countP_cons, ih]
    rfl

theorem countP_zeroRanked (c : CompetitorChip) (l : List CompetitorChip) :
    (l.map fun x => { x with classementGeneral := sentinelRank }).countP (sameChip c) =
      l.countP (sameChip c) := by
  induction l with
  | nil => rfl
  | cons a as ih =>
    rw [List.map_cons, List.countP_cons, List.countP_cons, ih]
    rfl

theorem countP_filterMap_single (q : CompetitorChip → Bool)
    (g : String → Option CompetitorChip) (c : CompetitorChip) (s : String)
    (hq : q c = true) (hgs : g s = some c)
    (hother : ∀ t, t ≠ s → ∀ y, g t = some y → q y = false) :
    ∀ L : List String, L.Nodup → s ∈ L → (L.filterMap g).countP q = 1 := by
  intro L
  induction L with
  | nil => intro _ h; cases h
  | cons t L ih =>
    intro hnd hs
    rcases List.nodup_cons.1 hnd with ⟨ht, hnd'⟩
    by_cases hts : t = s
    · subst hts
      rw [List.filterMap_cons, hgs, List.countP_cons, hq]
      have hzero : (L.filterMap g).countP q = 0 := by
        rw [List.countP_eq_zero]
        intro y hy
        rcases List.mem_filterMap.1 hy with ⟨t', ht', hgt'⟩
        have htt' : t' ≠ t := fun hcon => ht (hcon ▸ ht')
        simp [hother t' htt' y hgt']
      rw [hzero]
      rfl
    · rcases List.mem_cons.1 hs with h | h
      · exact absurd h.symm hts
      · rw [List.filterMap_cons]
        cases hgt : g t with
        | none => exact ih hnd' h
        | some y =>
          rw [List.countP_cons, hother t hts y hgt, ih hnd' h]
          rfl

theorem sum_map_ite_eq (k : ℕ) :
    ∀ L : List ℕ, L.Nodup →
      (L.map fun p => if p = k then 1 else 0).sum = if k ∈ L then 1 else 0 := by
  intro L
  induction L with
  | nil => intro _; simp
  | cons a L ih =>
    intro hnd
    rcases List.nodup_cons.1 hnd with ⟨ha, hnd'⟩
    rw [List.map_cons, List.sum_cons, ih hnd']
    by_cases hak : a = k
    · have hkL : k ∉ L := by rw [← hak]; exact ha
      rw [if_pos hak, if_neg hkL, if_pos (List.mem_cons.2 (Or.inl hak.symm))]
    · by_cases hkL : k ∈ L
      · rw [if_neg hak, if_pos hkL, if_pos (List.mem_cons.2 (Or.inr hkL))]
      · rw [if_neg hak, if_neg hkL, if_neg ?_]
        intro hcon
        rcases List.mem_cons.1 hcon with h | h
        · exact hak h.symm
        · exact hkL h

theorem countP_placeGroup {snap : Snapshot} {s : String} {c : CompetitorChip}
    (hs : s ∈ sectors) (hc : c ∈ sectorCalculations snap s) (p : ℕ) :
    (placeGroup snap p).countP (sameChip c) =
      if p = c.classementSecteur then 1 else 0 := by
  have hcs : c.sector = some s := sector_of_mem_sectorCalculations hc
  by_cases hp : p = c.classementSecteur
  · subst hp
    rw [if_pos rfl]
    refine countP_filterMap_single (sameChip c) _ c s ?_ (competitorAtPlace_self hc)
      ?_ sectors (by decide) hs
    · exact decide_eq_true rfl
    · intro t hts y hgt
      cases hq : sameChip c y
      · rfl
      · rcases sameChip_fields hq with ⟨_, hysec, _⟩
        have hyt : y.sector = some t :=
          sector_of_mem_sectorCalculations (List.mem_of_find?_eq_some hgt)
        rw [hysec, hcs] at hyt
        have : s = t := by simpa using hyt
        exact absurd this.symm hts
  · rw [if_neg hp, List.countP_eq_zero]
    intro y hy
    rcases List.mem_filterMap.1 hy with ⟨t, _, hgt⟩
    have hyrank : y.classementSecteur = p := by
      have := List.find?_some hgt
      simpa using this
    cases hq : sameChip c y
    · simp
    · rcases sameChip_fields hq with ⟨hrank, _, _⟩
      exact absurd (hyrank ▸ hrank) hp

theorem countP_generalRanking {snap : Snapshot} {s : String} {c : CompetitorChip}
    (hs : s ∈ sectors) (hc : c ∈ sectorCalculations snap s) :
    (generalRanking snap).countP (sameChip c) =
      if c.classementSecteur ≤ 20 then 1 else 0 := by
  rw [generalRanking, countP_flatten, List.map_map]
  have hmap : ∀ p ∈ places,
      (List.countP (sameChip c) ∘ fun place => sortBy coeffGe (placeGroup snap place)) p =
        (fun p => if p = c.classementSecteur then 1 else 0) p := by
    intro p _
    show (sortBy coeffGe (placeGroup snap p)).countP (sameChip c) = _
    rw [(sortBy_perm coeffGe (placeGroup snap p)).countP_eq]
    exact countP_placeGroup hs hc p
  rw [List.map_congr_left hmap, sum_map_ite_eq _ places (by decide)]
  have h₁ : 1 ≤ c.classementSecteur := (rank_bounds_sectorCalculations hc).1
  by_cases h20 : c.classementSecteur ≤ 20
  · rw [if_pos h20, if_pos]
    rw [places, List.mem_range'_1]
    omega
  · rw [if_neg h20, if_neg]
    rw [places, List.mem_range'_1]
    omega

/-- Claim C10 (implicit): a ranked chip appears in the final output exactly
once — in its own sector's list — when its sector rank is at most 20, and
nowhere at all when its sector rank exceeds 20. -/
theorem output_occurrence (snap : Snapshot) (s : String) (c : CompetitorChip)
    (hnn : NonnegEntries snap) (hs : s ∈ sectors) (hc : c ∈ sectorCalculations snap s) :
    ∀ t : String, (competitorsBySector snap t).countP (sameChip c) =
      if t = s ∧ c.classementSecteur ≤ 20 then 1 else 0 := by
  intro t
  have hcs : c.sector = some s := sector_of_mem_sectorCalculations hc
  have hcoe : 0 ≤ c.coefficient := coefficient_nonneg hnn hc
  have hall : (allRanked snap).countP (sameChip c) =
      if c.classementSecteur ≤ 20 then 1 else 0 := by
    rw [allRanked, List.countP_append, nonZeroRanked, countP_assignGeneralRanks,
      zeroRanked, countP_zeroRanked, nonZeroCompetitors, zeroCoeffCompetitors]
    rcases lt_or_eq_of_le hcoe with hpos | hzero
    · have himp : ∀ y, sameChip c y = true → decide (0 < y.coefficient) = true := by
        intro y hy
        rcases sameChip_fields hy with ⟨_, _, hyco⟩
        exact decide_eq_true (hyco ▸ hpos)
      have hcontra : ∀ y, decide (y.coefficient = 0) = true → sameChip c y = false := by
        intro y hb
        have hy0 : y.coefficient = 0 := of_decide_eq_true hb
        cases hq : sameChip c y
        · rfl
        · rcases sameChip_fields hq with ⟨_, _, hyco⟩
          rw [hy0] at hyco
          exact absurd hyco.symm (ne_of_gt hpos)
      rw [countP_filter_of_imp (sameChip c) _ himp,
        countP_filter_of_contra (sameChip c) _ hcontra, Nat.add_zero,
        countP_generalRanking hs hc]
    · have himp : ∀ y, sameChip c y = true → decide (y.coefficient = 0) = true := by
        intro y hy
        rcases sameChip_fields hy with ⟨_, _, hyco⟩
        exact decide_eq_true (hyco.trans hzero.symm)
      have hcontra : ∀ y, decide (0 < y.coefficient) = true → sameChip c y = false := by
        intro y hb
        have hy0 : 0 < y.coefficient := of_decide_eq_true hb
        cases hq : sameChip c y
        · rfl
        · rcases sameChip_fields hq with ⟨_, _, hyco⟩
          rw [← hzero] at hyco
          exact absurd hyco (ne_of_gt hy0)
      rw [countP_filter_of_contra (sameChip c) _ hcontra,
        countP_filter_of_imp (sameChip c) _ himp, Nat.zero_add,
        countP_generalRanking hs hc]
  rw [competitorsBySector, (sortBy_perm boxLe _).countP_eq]
  by_cases hts : t = s
  · subst hts
    have himp : ∀ y, sameChip c y = true → decide (y.sector = some t) = true := by
      intro y hy
      rcases sameChip_fields hy with ⟨_, hysec, _⟩
      exact decide_eq_true (hysec.trans hcs)
    rw [countP_filter_of_imp (sameChip c) _ himp, hall]
    by_cases h20 : c.classementSecteur ≤ 20
    · rw [if_pos h20, if_pos ⟨rfl, h20⟩]
    · rw [if_neg h20, if_neg (fun hcon => h20 hcon.2)]
  · have hcontra : ∀ y, decide (y.sector = some t) = true → sameChip c y = false := by
      intro y hb
      have hyt : y.sector = some t := of_decide_eq_true hb
      cases hq : sameChip c y
      · rfl
      · rcases sameChip_fields hq with ⟨_, hysec, _⟩
        rw [hysec, hcs] at hyt
        have : s = t := by simpa using hyt
        exact absurd this.symm hts
    rw [countP_filter_of_contra (sameChip c) _ hcontra, if_neg (fun hcon => hts hcon.1)]

/-- The sector-ranked chip of competitor `c3` of `sampleSnap` (sector rank 1). -/
def sampleRanked3 : CompetitorChip :=
  { id := "c3", name := "c3", equipe := "", boxNumber := 3, boxCode := "A03",
    sector := some "A", photo := "", fishCount := 5, totalWeight := 3,
    biggestCatch := 0, points := 253, coefficient := 1265 / 7,
    classementSecteur := 1, classementGeneral := 0 }

/-- Witness for C10 at the sample snapshot: the rank-1 chip of sector A occurs
exactly once in sector A's final output. -/
theorem output_occurrence_witness :
    (competitorsBySector sampleSnap "A").countP (sameChip sampleRanked3) =
      if ("A" = "A" ∧ sampleRanked3.classementSecteur ≤ 20) then 1 else 0 :=
  output_occurrence sampleSnap "A" sampleRanked3
    (by
      intro e he
      simp [sampleSnap] at he
      rcases he with h | h | h <;> subst h <;> norm_num)
    (by decide)
    (by
      simp [sectorCalculations, sectorSorted, withCoefficients, sectorCalculated,
        sectorCompetitors, aggregate, nbPrisesGlobal, poidsTotal, entriesAt,
        grossePrise, grossePriseEntry, sectorTotalNbPrises, hours, sampleSnap,
        countedStatus, countedStatuses, List.filter_cons, List.find?, sortBy,
        insertBy, pointsGe, assignSectorRanks, sampleRanked3]
      norm_num [insertBy, pointsGe, assignSectorRanks])
    "A"

/-! ### Competitors with no counted entries -/

/-- Claim C6: a competitor with no counted hourly entry and no counted
big-catch entry gets an all-zero standing (fish count, weight, biggest catch,
points and coefficient all 0) and is still present in the sector ranking and,
when the sector has at most 20 competitors, in the final output with the
sentinel general rank. -/
theorem zero_entries_competitor (snap : Snapshot) (comp : Competitor) (s : String)
    (hmem : comp ∈ snap.competitors) (hsec : comp.sector = some s) (hs : s ∈ sectors)
    (hhe : ∀ e ∈ snap.hourlyEntries, e.competitorId = comp.id →
      countedStatus e.status = false)
    (hbc : ∀ e ∈ snap.bigCatches, e.competitorId = comp.id →
      countedStatus e.status = false)
    (hsize : (sectorCompetitors snap s).length ≤ 20) :
    ((aggregate snap comp).fishCount = 0 ∧ (aggregate snap comp).totalWeight = 0 ∧
      (aggregate snap comp).biggestCatch = 0 ∧ (aggregate snap comp).points = 0)
    ∧ ∃ y ∈ sectorCalculations snap s,
        y.id = comp.id ∧ y.fishCount = 0 ∧ y.totalWeight = 0 ∧ y.biggestCatch = 0 ∧
        y.points = 0 ∧ y.coefficient = 0 ∧
        ∃ z ∈ competitorsBySector snap s,
          eraseGR z = eraseGR y ∧ z.classementGeneral = sentinelRank := by
  have hfe : ∀ h : ℚ, entriesAt snap comp.id h = [] := by
    intro h
    rw [entriesAt, List.filter_eq_nil_iff]
    intro e he
    simp only [Bool.and_eq_true, decide_eq_true_eq, not_and]
    rintro ⟨hid, _⟩ hst
    rw [hhe e he hid] at hst
    exact Bool.false_ne_true hst
  have hfish : (aggregate snap comp).fishCount = 0 := by
    show nbPrisesGlobal snap comp.id = 0
    simp [nbPrisesGlobal, hfe, hours]
  have hpoids : (aggregate snap comp).totalWeight = 0 := by
    show poidsTotal snap comp.id = 0
    simp [poidsTotal, hfe, hours]
  have hbig : (aggregate snap comp).biggestCatch = 0 := by
    show grossePrise snap comp.id = 0
    have hnone : grossePriseEntry snap comp.id = none := by
      rw [grossePriseEntry, List.find?_eq_none]
      intro e he
      simp only [Bool.and_eq_true, decide_eq_true_eq, not_and]
      intro hid hst
      rw [hbc e he hid] at hst
      exact Bool.false_ne_true hst
    rw [grossePrise, hnone]
  have hpts : (aggregate snap comp).points = 0 := by
    show nbPrisesGlobal snap comp.id * 50 + poidsTotal snap comp.id = 0
    have h₁ : nbPrisesGlobal snap comp.id = 0 := hfish
    have h₂ : poidsTotal snap comp.id = 0 := hpoids
    rw [h₁, h₂]
    norm_num
  refine ⟨⟨hfish, hpoids, hbig, hpts⟩, ?_⟩
  have hcompmem : comp ∈ sectorCompetitors snap s :=
    List.mem_filter.2 ⟨hmem, decide_eq_true hsec⟩
  have hcw : ({ aggregate snap comp with
      coefficient := coeffOf snap s (aggregate snap comp) } : CompetitorChip) ∈
        withCoefficients snap s :=
    List.mem_map_of_mem _ (List.mem_map_of_mem (aggregate snap) hcompmem)
  have hcwco : coeffOf snap s (aggregate snap comp) = 0 := by
    rw [coeffOf, hpts]
    split <;> simp
  have hcwmem : eraseSR { aggregate snap comp with
      coefficient := coeffOf snap s (aggregate snap comp) } ∈
        (sectorCalculations snap s).map eraseSR := by
    rw [sectorCalculations, map_eraseSR_assignSectorRanks]
    exact List.mem_map_of_mem eraseSR (((sortBy_perm _ _).mem_iff).2 hcw)
  rcases List.mem_map.1 hcwmem with ⟨y, hy, hye⟩
  have hyid : y.id = comp.id := by
    have h := congrArg CompetitorChip.id hye
    simp only [eraseSR] at h
    rw [h]
    rfl
  have hyfish : y.fishCount = 0 := by
    have h := congrArg CompetitorChip.fishCount hye
    simp only [eraseSR] at h
    rw [h]
    exact hfish
  have hypoids : y.totalWeight = 0 := by
    have h := congrArg CompetitorChip.totalWeight hye
    simp only [eraseSR] at h
    rw [h]
    exact hpoids
  have hybig : y.biggestCatch = 0 := by
    have h := congrArg CompetitorChip.biggestCatch hye
    simp only [eraseSR] at h
    rw [h]
    exact hbig
  have hypts : y.points = 0 := by
    have h := congrArg CompetitorChip.points hye
    simp only [eraseSR] at h
    rw [h]
    exact hpts
  have hyco : y.coefficient = 0 := by
    have h := congrArg CompetitorChip.coefficient hye
    simp only [eraseSR] at h
    rw [h]
    exact hcwco
  have hysec : y.sector = some s := by
    have h := congrArg CompetitorChip.sector hye
    simp only [eraseSR] at h
    rw [h]
    exact hsec
  refine ⟨y, hy, hyid, hyfish, hypoids, hybig, hypts, hyco, ?_⟩
  have hrank : y.classementSecteur ≤ 20 :=
    le_trans (rank_bounds_sectorCalculations hy).2 hsize
  have hyGR : y ∈ generalRanking snap := mem_generalRanking_of_rank hs hy hrank
  have hyzero : y ∈ zeroCoeffCompetitors snap :=
    List.mem_filter.2 ⟨hyGR, decide_eq_true hyco⟩
  refine ⟨{ y with classementGeneral := sentinelRank }, ?_, rfl, rfl⟩
  have hz₁ : ({ y with classementGeneral := sentinelRank } : CompetitorChip) ∈
      allRanked snap :=
    List.mem_append.2 (Or.inr (List.mem_map_of_mem _ hyzero))
  refine ((sortBy_perm boxLe _).mem_iff).2 (List.mem_filter.2 ⟨hz₁, ?_⟩)
  exact decide_eq_true hysec

/-- The sample snapshot's competitor `c2`, whose only entry has status
`draft` and who has no big catch: zero counted entries. -/
def sampleComp2 : Competitor :=
  { id := "c2", fullName := "c2", equipe := "", boxNumber := 2, boxCode := "A02",
    sector := some "A", photo := "" }

/-- Witness for C6: competitor `c2` of the sample snapshot (only a draft
entry) gets an all-zero standing and appears in the output with the sentinel
rank. -/
theorem zero_entries_competitor_witness :
    ((aggregate sampleSnap sampleComp2).fishCount = 0 ∧
      (aggregate sampleSnap sampleComp2).totalWeight = 0 ∧
      (aggregate sampleSnap sampleComp2).biggestCatch = 0 ∧
      (aggregate sampleSnap sampleComp2).points = 0)
    ∧ ∃ y ∈ sectorCalculations sampleSnap "A",
        y.id = sampleComp2.id ∧ y.fishCount = 0 ∧ y.totalWeight = 0 ∧
        y.biggestCatch = 0 ∧ y.points = 0 ∧ y.coefficient = 0 ∧
        ∃ z ∈ competitorsBySector sampleSnap "A",
          eraseGR z = eraseGR y ∧ z.classementGeneral = sentinelRank :=
  zero_entries_competitor sampleSnap sampleComp2 "A"
    (by simp [sampleSnap, sampleComp2])
    rfl
    (by decide)
    (by
      intro e he hid
      simp [sampleSnap] at he
      rcases he with h | h | h <;> subst h <;> revert hid <;> decide)
    (by
      intro e he hid
      simp [sampleSnap] at he
      subst he
      revert hid
      decide)
    (by decide)

end BeachMap
